import Mathlib

/-!
Verification of the chisel-boom repository fragment: the DRAM timing-model
callback (src/resources/dram.cc) and the soft multiply/divide runtime library
(src/test/e2e-tests/resources/linkage/math.c).

The DRAM callback is embedded as a pure state-transition function on a state
holding the in-flight response queue and the 64MB byte storage (a function
from addresses to byte values).  Machine integers are modelled as Nat with
explicit `% 2 ^ 32` at the points where the C code truncates or can wrap.
-/

/-- Size of the backing storage: `64 * 1024 * 1024` bytes (dram.cc line 10). -/
def MEMSIZE : Nat := 64 * 1024 * 1024

/-- Fixed response latency in cycles (dram.cc line 12: `static const int DELAY = 20`). -/
def DELAY : Nat := 20

/-- One in-flight memory response (dram.cc `struct Response`): a 32-bit id,
a 128-bit payload stored as four 32-bit words, and the remaining-cycle
countdown. -/
structure Response where
  id : Int
  data : List Nat
  countdown : Nat
deriving DecidableEq, Repr

/-- The mutable state of the DRAM model: the in-flight response queue
(`resp_queue`) and the byte storage (`mem_storage`). -/
structure DState where
  queue : List Response
  mem : Nat → Nat

/-- The per-cycle inputs of `dram_tick` (the request channel plus the
consumer's ready bit). -/
structure DramInput where
  req_valid : Bool
  req_id : Int
  req_addr : Nat
  req_isWr : Bool
  req_data : List Nat
  req_mask : Nat
  resp_ready : Bool
deriving DecidableEq, Repr

/-- The per-cycle outputs of `dram_tick`. -/
structure DramOutput where
  req_ready : Bool
  resp_valid : Bool
  resp_id : Int
  resp_data : List Nat
deriving DecidableEq, Repr

/-- Countdown decrement pass (dram.cc lines 112-114): every queue entry with a
positive countdown is decremented by one. -/
def tickDown (q : List Response) : List Response :=
  q.map (fun r => if 0 < r.countdown then { r with countdown := r.countdown - 1 } else r)

/-- Delivery condition (dram.cc lines 116-118): the queue is nonempty, the
head's countdown (after the decrement pass) is zero, and the consumer is
ready. -/
def deliverNow (rdy : Bool) (q : List Response) : Bool :=
  match q with
  | [] => false
  | h :: _ => (h.countdown == 0) && rdy

/-- Placeholder response used only for `headD` defaults. -/
def dfltResp : Response := ⟨0, [0, 0, 0, 0], 0⟩

/-- The queue after this cycle's decrement and delivery (dram.cc line 130
erases the head when the delivery condition holds). -/
def midQueue (inp : DramInput) (s : DState) : List Response :=
  if deliverNow inp.resp_ready (tickDown s.queue) then (tickDown s.queue).tail
  else tickDown s.queue

/-- Acceptance condition (dram.cc lines 135-138): the request is valid and the
queue, after this cycle's delivery, holds fewer than `MAX_QUEUE = 16`
entries. -/
def acceptedB (inp : DramInput) (s : DState) : Bool :=
  inp.req_valid && decide ((midQueue inp s).length < 16)

/-- Address truncation (dram.cc line 139: `uint32_t raw_addr = (uint32_t)req_addr`). -/
def rawAddr (inp : DramInput) : Nat :=
  inp.req_addr % 2 ^ 32

/-- Bounds check (dram.cc line 144, with `DRAM_BASE = 0`). -/
def inRange (inp : DramInput) : Bool :=
  decide (rawAddr inp < MEMSIZE)

/-- Byte `i` of the 128-bit request payload (dram.cc lines 166-168). -/
def byteVal (data : List Nat) (i : Nat) : Nat :=
  ((data.getD (i / 4) 0) >>> ((i % 4) * 8)) &&& 255

/-- Pointwise update of the byte storage. -/
def writeByte (m : Nat → Nat) (a b : Nat) : Nat → Nat :=
  fun j => if j = a then b else m j

/-- The masked-write loop of dram.cc lines 162-174, unrolled from index 0: the
argument `n` is the number of loop iterations already performed, so
`writeGo m off data mask 16` is the storage after the full loop. -/
def writeGo (m : Nat → Nat) (off : Nat) (data : List Nat) (mask : Nat) : Nat → (Nat → Nat)
  | 0 => m
  | n + 1 =>
    if (mask >>> n) &&& 1 = 1 then
      (if off + n < MEMSIZE then
        writeByte (writeGo m off data mask n) (off + n) (byteVal data n)
      else writeGo m off data mask n)
    else writeGo m off data mask n

/-- The storage after an in-range masked write (dram.cc lines 162-174). -/
def writeData (m : Nat → Nat) (off : Nat) (data : List Nat) (mask : Nat) : Nat → Nat :=
  writeGo m off data mask 16

/-- The read loop of dram.cc lines 181-186, unrolled from index 0; the data
words start from the `memset` zeros of line 157. -/
def readGo (mem : Nat → Nat) (off : Nat) : Nat → List Nat
  | 0 => [0, 0, 0, 0]
  | n + 1 =>
    (readGo mem off n).set (n / 4)
      (((readGo mem off n).getD (n / 4) 0) ||| ((mem (off + n)) <<< ((n % 4) * 8)))

/-- The 128-bit data returned by an in-range, fully in-bounds read. -/
def readData (mem : Nat → Nat) (off : Nat) : List Nat :=
  readGo mem off 16

/-- The response record enqueued for an accepted request (dram.cc lines
154-157 and 179-195): the request id, a countdown of `DELAY`, and data that is
zero except for a read that is in range with all 16 bytes in bounds. -/
def newResp (inp : DramInput) (s : DState) : Response :=
  ⟨inp.req_id,
   if inp.req_isWr then [0, 0, 0, 0]
   else if inRange inp && decide (rawAddr inp + 16 ≤ MEMSIZE) then readData s.mem (rawAddr inp)
   else [0, 0, 0, 0],
   DELAY⟩

/-- One invocation of `dram_tick` (dram.cc lines 89-199): decrement the
countdowns, deliver the head response if ripe and the consumer is ready,
compute back-pressure, and accept at most one new request. -/
def dramTick (inp : DramInput) (s : DState) : DState × DramOutput :=
  let q1 := tickDown s.queue
  let dv := deliverNow inp.resp_ready q1
  let h := q1.headD dfltResp
  let q2 := midQueue inp s
  let acc := acceptedB inp s
  let mem2 :=
    if acc && inp.req_isWr && inRange inp then
      writeData s.mem (rawAddr inp) inp.req_data inp.req_mask
    else s.mem
  let q3 := if acc then q2 ++ [newResp inp s] else q2
  (⟨q3, mem2⟩,
   ⟨decide (q2.length < 16), dv,
    if dv then h.id else 0,
    if dv then h.data else [0, 0, 0, 0]⟩)

/-- The initial state: empty queue, zeroed storage. -/
def initState : DState :=
  ⟨[], fun _ => 0⟩

/-- Iterated `dram_tick`. -/
def dramRun (s : DState) : List DramInput → DState
  | [] => s
  | i :: rest => dramRun (dramTick i s).1 rest

/-- Iterated `dram_tick` together with the chronological log of accepted
request ids (first component) and delivered response ids (second component). -/
def runLog (s : DState) : List DramInput → DState × (List Int × List Int)
  | [] => (s, ([], []))
  | i :: rest =>
    let p := dramTick i s
    let q := runLog p.1 rest
    (q.1,
     ((if acceptedB i s = true then [i.req_id] else []) ++ q.2.1,
      (if p.2.resp_valid = true then [p.2.resp_id] else []) ++ q.2.2))

/-!
Ghost-instrumented copy of the DRAM model: each queue entry additionally
carries the index of the tick that accepted it.  `eraseA` projects the
instrumented state onto the plain one; `agedTick_faithful` (below) proves that
the instrumentation does not change the behaviour, so temporal statements
proved on the instrumented run hold of `dramTick` runs.
-/

/-- A queue entry together with the index of the tick that created it. -/
structure ARec where
  r : Response
  birth : Nat
deriving DecidableEq, Repr

/-- Instrumented DRAM state. -/
structure AState where
  queue : List ARec
  mem : Nat → Nat

/-- Instrumented countdown decrement pass. -/
def atickDown (q : List ARec) : List ARec :=
  q.map (fun e => if 0 < e.r.countdown then ⟨{ e.r with countdown := e.r.countdown - 1 }, e.birth⟩ else e)

/-- Instrumented delivery condition. -/
def adeliverNow (rdy : Bool) (q : List ARec) : Bool :=
  match q with
  | [] => false
  | h :: _ => (h.r.countdown == 0) && rdy

/-- Instrumented post-delivery queue. -/
def amidQueue (inp : DramInput) (s : AState) : List ARec :=
  if adeliverNow inp.resp_ready (atickDown s.queue) then (atickDown s.queue).tail
  else atickDown s.queue

/-- Instrumented acceptance condition. -/
def aacceptedB (inp : DramInput) (s : AState) : Bool :=
  inp.req_valid && decide ((amidQueue inp s).length < 16)

/-- Projection dropping the ghost birth index. -/
def eraseA (s : AState) : DState :=
  ⟨s.queue.map ARec.r, s.mem⟩

/-- One instrumented tick at time `T`: identical to `dramTick` except that the
newly accepted entry records `T` as its birth tick. -/
def agedTick (T : Nat) (inp : DramInput) (s : AState) : AState × DramOutput :=
  let q1 := atickDown s.queue
  let dv := adeliverNow inp.resp_ready q1
  let h := q1.headD ⟨dfltResp, 0⟩
  let q2 := amidQueue inp s
  let acc := aacceptedB inp s
  let mem2 :=
    if acc && inp.req_isWr && inRange inp then
      writeData s.mem (rawAddr inp) inp.req_data inp.req_mask
    else s.mem
  let q3 := if acc then q2 ++ [⟨newResp inp (eraseA s), T⟩] else q2
  (⟨q3, mem2⟩,
   ⟨decide (q2.length < 16), dv,
    if dv then h.r.id else 0,
    if dv then h.r.data else [0, 0, 0, 0]⟩)

/-- Instrumented initial state. -/
def initA : AState :=
  ⟨[], fun _ => 0⟩

/-- Instrumented run starting at time `T`. -/
def agedRunFrom (T : Nat) (s : AState) : List DramInput → AState
  | [] => s
  | i :: rest => agedRunFrom (T + 1) (agedTick T i s).1 rest

/-- Age invariant: after `T` ticks, an entry born at tick `b` was decremented
during ticks `b+1 .. T-1`, so its countdown is `DELAY` minus the elapsed
cycles, floored at zero. -/
def ageOK (T : Nat) (e : ARec) : Prop :=
  e.birth < T ∧ e.r.countdown = DELAY - min (T - 1 - e.birth) DELAY

/-!
Embedding of the soft multiply/divide runtime library
(src/test/e2e-tests/resources/linkage/math.c).  The 32-bit unsigned values are
modelled as `Nat` below `2 ^ 32`; signed values are the two's-complement
interpretation `toInt32` of the same bit patterns.
-/

/-- Two's-complement reading of a 32-bit pattern. -/
def toInt32 (x : Nat) : Int :=
  if x < 2 ^ 31 then (x : Int) else (x : Int) - 2 ^ 32

/-- The shift-and-add loop of `__mulsi3` (math.c lines 8-13); `ua <<= 1` wraps
at 32 bits, as does the accumulating addition. -/
def mulLoop (ua ub res : Nat) : Nat :=
  if h : ub = 0 then res
  else mulLoop ((ua * 2) % 2 ^ 32) (ub / 2) (if ub % 2 = 1 then (res + ua) % 2 ^ 32 else res)
termination_by ub
decreasing_by exact Nat.div_lt_self (Nat.pos_of_ne_zero h) (by decide)

/-- Soft multiply `__mulsi3` (math.c lines 5-15) on 32-bit patterns. -/
def __mulsi3 (a b : Nat) : Nat :=
  mulLoop a b 0

/-- The restoring-division loop of `__udivsi3` (math.c lines 20-27).  The
argument counts the remaining iterations, so the loop index `i` of the C code
is `fuel - 1`; `r <<= 1` wraps at 32 bits.  `1U << i` and `q |= ...` cannot
wrap for the indices 31..0 actually used, so no reduction is inserted there. -/
def udivGo (n d q r : Nat) : Nat → Nat × Nat
  | 0 => (q, r)
  | fuel + 1 =>
    let r1 := ((r * 2) % 2 ^ 32) ||| ((n >>> fuel) &&& 1)
    if d ≤ r1 then udivGo n d (q ||| (1 <<< fuel)) (r1 - d) fuel
    else udivGo n d q r1 fuel

/-- Unsigned soft division `__udivsi3` (math.c lines 17-29): exactly 32
iterations of the restoring-division step, for every input. -/
def __udivsi3 (n d : Nat) : Nat :=
  (udivGo n d 0 0 32).1

/-- The loop of `__umodsi3` (math.c lines 33-39): the same remainder recurrence
without the quotient register. -/
def umodGo (n d r : Nat) : Nat → Nat
  | 0 => r
  | fuel + 1 =>
    let r1 := ((r * 2) % 2 ^ 32) ||| ((n >>> fuel) &&& 1)
    if d ≤ r1 then umodGo n d (r1 - d) fuel
    else umodGo n d r1 fuel

/-- Unsigned soft remainder `__umodsi3` (math.c lines 31-41). -/
def __umodsi3 (n d : Nat) : Nat :=
  umodGo n d 0 32

/-- Signed soft division `__divsi3` (math.c lines 43-50) on 32-bit patterns:
in C the operands are `SItype`, so the sign tests read the patterns in two's
complement, and the negations wrap at 32 bits. -/
def __divsi3 (n d : Nat) : Nat :=
  let n_neg := decide (2 ^ 31 ≤ n)
  let d_neg := decide (2 ^ 31 ≤ d)
  let un := if n_neg then (2 ^ 32 - n) % 2 ^ 32 else n
  let ud := if d_neg then (2 ^ 32 - d) % 2 ^ 32 else d
  let uq := __udivsi3 un ud
  if n_neg != d_neg then (2 ^ 32 - uq) % 2 ^ 32 else uq

/-- Signed soft remainder `__modsi3` (math.c lines 52-59) on 32-bit patterns. -/
def __modsi3 (n d : Nat) : Nat :=
  let n_neg := decide (2 ^ 31 ≤ n)
  let d_neg := decide (2 ^ 31 ≤ d)
  let un := if n_neg then (2 ^ 32 - n) % 2 ^ 32 else n
  let ud := if d_neg then (2 ^ 32 - d) % 2 ^ 32 else d
  let ur := __umodsi3 un ud
  if n_neg then (2 ^ 32 - ur) % 2 ^ 32 else ur

/-!
Embedding of the `dram_init` hex-file loader's per-line processing
(dram.cc lines 51-79).  A line is a list of characters.
-/

/-- C `isspace` on the characters that can occur in a text line. -/
def isSpaceC (c : Char) : Bool :=
  c = ' ' || c = '\t' || c = '\n' || c = Char.ofNat 11 || c = Char.ofNat 12 || c = '\r'

/-- Truncate a line at the first `//` (dram.cc lines 54-55). -/
def stripComment : List Char → List Char
  | [] => []
  | '/' :: '/' :: _ => []
  | c :: rest => c :: stripComment rest

/-- Trim trailing then leading whitespace (dram.cc lines 57-58). -/
def trimC (l : List Char) : List Char :=
  ((l.reverse.dropWhile isSpaceC).reverse).dropWhile isSpaceC

/-- Value of a hexadecimal digit character, if it is one. -/
def hexVal (c : Char) : Option Nat :=
  if '0' ≤ c ∧ c ≤ '9' then some (c.toNat - '0'.toNat)
  else if 'a' ≤ c ∧ c ≤ 'f' then some (c.toNat - 'a'.toNat + 10)
  else if 'A' ≤ c ∧ c ≤ 'F' then some (c.toNat - 'A'.toNat + 10)
  else none

/-- The semantics of `(uint32_t)std::stoul(line, nullptr, 16)` on a trimmed
line (dram.cc line 67): an optional sign, an optional `0x` prefix when a hex
digit follows it, then the longest run of hex digits, which must be nonempty
or the call throws `invalid_argument`; a magnitude exceeding `ULONG_MAX`
(64-bit) throws `out_of_range`; a minus sign negates modulo `2 ^ 64`; trailing
non-digit characters are ignored; the result is truncated to 32 bits. -/
def parseHexU32 (l : List Char) : Option Nat :=
  let sgn : Bool × List Char :=
    match l with
    | '-' :: rest => (true, rest)
    | '+' :: rest => (false, rest)
    | _ => (false, l)
  let l2 : List Char :=
    match sgn.2 with
    | '0' :: c2 :: c3 :: rest =>
      if (c2 = 'x' || c2 = 'X') && (hexVal c3).isSome then c3 :: rest else sgn.2
    | _ => sgn.2
  let digits := l2.takeWhile (fun c => (hexVal c).isSome)
  if digits.isEmpty then none
  else
    let v := digits.foldl (fun a c => a * 16 + ((hexVal c).getD 0)) 0
    if 2 ^ 64 ≤ v then none
    else some ((if sgn.1 then (2 ^ 64 - v) % 2 ^ 64 else v) % 2 ^ 32)

/-- Little-endian store of a 32-bit word (dram.cc lines 70-73). -/
def storeWord (m : Nat → Nat) (addr v : Nat) : Nat → Nat :=
  writeByte (writeByte (writeByte (writeByte m addr (v &&& 255))
    (addr + 1) ((v >>> 8) &&& 255))
    (addr + 2) ((v >>> 16) &&& 255))
    (addr + 3) ((v >>> 24) &&& 255)

/-- Processing of one line of the hex file by `dram_init` (dram.cc lines
51-79): strip comments, trim, skip blank and `@` lines, skip lines that fail
to parse, and otherwise store the parsed word little-endian and advance the
load address by 4 when the word fits below `MEMSIZE`. -/
def processLine (m : Nat → Nat) (addr : Nat) (l : List Char) : (Nat → Nat) × Nat :=
  let t := trimC (stripComment l)
  match t with
  | [] => (m, addr)
  | c :: _ =>
    if c = '@' then (m, addr)
    else
      match parseHexU32 t with
      | none => (m, addr)
      | some v =>
        if addr + 4 ≤ MEMSIZE then (storeWord m addr v, addr + 4)
        else (m, addr)

/-- The whole load loop of `dram_init` over the file's lines, starting from
the zeroed storage (dram.cc lines 44-49). -/
def dramInitLoad (lines : List (List Char)) : (Nat → Nat) × Nat :=
  lines.foldl (fun p l => processLine p.1 p.2 l) (fun _ => 0, 0)

/-- A line is skipped when, after comment stripping and trimming, it is empty,
is an `@` directive, or fails to parse as a hexadecimal number. -/
def skipLine (l : List Char) : Prop :=
  trimC (stripComment l) = [] ∨
  (trimC (stripComment l)).headD ' ' = '@' ∨
  parseHexU32 (trimC (stripComment l)) = none

/-- Concrete request input used in counterexample and witness runs: a valid
out-of-range write with id 7 and a never-ready consumer. -/
def cexReq : DramInput := ⟨true, 7, 2 ^ 31, true, [0, 0, 0, 0], 0, false⟩

/-- Concrete idle input: no request, consumer not ready. -/
def cexIdle : DramInput := ⟨false, 0, 0, false, [0, 0, 0, 0], 0, false⟩

/-- Concrete request input for the delivery witness: id 5. -/
def witReq : DramInput := ⟨true, 5, 2 ^ 31, true, [0, 0, 0, 0], 0, false⟩

/-- Concrete idle input with a ready consumer. -/
def witRdy : DramInput := ⟨false, 0, 0, false, [0, 0, 0, 0], 0, true⟩

/-- Twenty-tick witness run: one accepted request followed by 19 idle ticks. -/
def witInputs : List DramInput := witReq :: List.replicate 19 cexIdle

/-- Concrete in-range masked write request: address 16, bytes 0 and 2 masked. -/
def wrReq : DramInput := ⟨true, 3, 16, true, [16909060, 0, 0, 0], 5, false⟩

/-- Concrete out-of-bounds read request (address `2 ^ 31`). -/
def oobReq : DramInput := ⟨true, 9, 2 ^ 31, false, [0, 0, 0, 0], 0, false⟩

/-- Concrete read request whose 16-byte window crosses the end of storage. -/
def tailRd : DramInput := ⟨true, 11, MEMSIZE - 8, false, [0, 0, 0, 0], 0, false⟩

/-- Concrete masked write request whose window crosses the end of storage. -/
def tailWr : DramInput := ⟨true, 12, MEMSIZE - 8, true, [257, 0, 0, 0], 3, false⟩

/-- A comment-only hex-file line. -/
def cLine : List Char := " // boot rom image".toList

/-- A parsable hex-file line. -/
def dLine : List Char := "DEADBEEF".toList

/-!
Helper lemmas: definitional unfoldings of the components of `dramTick`, and
conservation of the queue's id sequence across one tick.
-/

theorem dramTick_queue_def (inp : DramInput) (s : DState) :
    (dramTick inp s).1.queue =
      if acceptedB inp s = true then midQueue inp s ++ [newResp inp s] else midQueue inp s := rfl

theorem dramTick_mem_def (inp : DramInput) (s : DState) :
    (dramTick inp s).1.mem =
      if (acceptedB inp s && inp.req_isWr && inRange inp) = true then
        writeData s.mem (rawAddr inp) inp.req_data inp.req_mask
      else s.mem := rfl

theorem dramTick_ready_def (inp : DramInput) (s : DState) :
    (dramTick inp s).2.req_ready = decide ((midQueue inp s).length < 16) := rfl

theorem dramTick_valid_def (inp : DramInput) (s : DState) :
    (dramTick inp s).2.resp_valid = deliverNow inp.resp_ready (tickDown s.queue) := rfl

theorem dramTick_respid_def (inp : DramInput) (s : DState) :
    (dramTick inp s).2.resp_id =
      if deliverNow inp.resp_ready (tickDown s.queue) = true then
        ((tickDown s.queue).headD dfltResp).id
      else 0 := rfl

theorem tickDown_id_pointwise (r : Response) :
    (if 0 < r.countdown then { r with countdown := r.countdown - 1 } else r).id = r.id := by
  split <;> rfl

theorem tickDown_ids (q : List Response) :
    (tickDown q).map Response.id = q.map Response.id := by
  unfold tickDown
  rw [List.map_map]
  have h : Response.id ∘ (fun r => if 0 < r.countdown then { r with countdown := r.countdown - 1 } else r) = Response.id := by
    funext r
    exact tickDown_id_pointwise r
  rw [h]

theorem tickDown_length (q : List Response) :
    (tickDown q).length = q.length := by
  simp [tickDown]

/-- Core of the id-conservation argument, stated over an abstract queue so
that it can be case-analysed. -/
theorem tick_ids_core (rdy vb : Bool) (ri : Int) (nr : Response) (q : List Response)
    (hnr : nr.id = ri) :
    (if deliverNow rdy q = true then
        [if deliverNow rdy q = true then (q.headD dfltResp).id else 0]
      else []) ++
      List.map Response.id
        (if (vb && decide ((if deliverNow rdy q = true then q.tail else q).length < 16)) = true then
          (if deliverNow rdy q = true then q.tail else q) ++ [nr]
        else if deliverNow rdy q = true then q.tail else q) =
    List.map Response.id q ++
      (if (vb && decide ((if deliverNow rdy q = true then q.tail else q).length < 16)) = true then
        [ri]
      else []) := by
  cases q with
  | nil =>
    simp only [deliverNow, Bool.false_eq_true, if_false, List.nil_append, List.map_nil]
    split <;> simp [hnr]
  | cons h t =>
    by_cases hdv : deliverNow rdy (h :: t) = true
    · simp only [hdv, if_true, List.headD_cons, List.tail_cons, List.map_cons]
      split <;> simp [hnr]
    · rw [Bool.not_eq_true] at hdv
      simp only [hdv, Bool.false_eq_true, if_false, List.map_cons]
      split <;> simp [hnr]

/-- One tick conserves ids: the delivered id (if any) prepended to the ids of
the new queue equals the ids of the old queue followed by the accepted id
(if any). -/
theorem tick_ids (inp : DramInput) (s : DState) :
    (if (dramTick inp s).2.resp_valid = true then [(dramTick inp s).2.resp_id] else []) ++
      ((dramTick inp s).1.queue.map Response.id) =
    s.queue.map Response.id ++ (if acceptedB inp s = true then [inp.req_id] else []) := by
  rw [← tickDown_ids s.queue]
  exact tick_ids_core inp.resp_ready inp.req_valid inp.req_id (newResp inp s)
    (tickDown s.queue) rfl

/-- Run-level id conservation: the delivered ids followed by the ids still in
flight equal the ids in flight at the start followed by the accepted ids. -/
theorem runLog_inv (inputs : List DramInput) :
    ∀ s : DState,
      (runLog s inputs).2.2 ++ ((runLog s inputs).1.queue.map Response.id) =
        (s.queue.map Response.id) ++ (runLog s inputs).2.1 := by
  induction inputs with
  | nil => intro s; simp [runLog]
  | cons i rest ih =>
    intro s
    simp only [runLog]
    rw [List.append_assoc, ih (dramTick i s).1, ← List.append_assoc, tick_ids i s,
      List.append_assoc]

/-- C1: responses leave the DRAM model in exactly the order their requests
were accepted.  For every input sequence, the delivered response ids followed
by the ids still in flight equal the accepted request ids, so the delivered
ids are a prefix of the accepted ids: nothing is dropped, duplicated, or
reordered. -/
theorem dram_fifo_order (inputs : List DramInput) :
    (runLog initState inputs).2.2 ++ ((runLog initState inputs).1.queue.map Response.id) =
      (runLog initState inputs).2.1 ∧
    ∃ t, (runLog initState inputs).2.2 ++ t = (runLog initState inputs).2.1 := by
  have h := runLog_inv inputs initState
  simp only [initState, List.map_nil, List.nil_append] at h
  exact ⟨h, _, h⟩

theorem midQueue_len_le (inp : DramInput) (s : DState) :
    (midQueue inp s).length ≤ s.queue.length := by
  unfold midQueue
  split
  · rw [List.length_tail, tickDown_length]
    omega
  · exact Nat.le_of_eq (tickDown_length s.queue)

theorem tick_len (inp : DramInput) (s : DState) (h : s.queue.length ≤ 16) :
    (dramTick inp s).1.queue.length ≤ 16 := by
  rw [dramTick_queue_def]
  by_cases ha : acceptedB inp s = true
  · rw [if_pos ha]
    have hlt : (midQueue inp s).length < 16 := by
      have := (Bool.and_eq_true _ _).mp ha
      exact of_decide_eq_true this.2
    simp only [List.length_append, List.length_cons, List.length_nil]
    omega
  · rw [if_neg ha]
    exact le_trans (midQueue_len_le inp s) h

theorem run_len (inputs : List DramInput) :
    ∀ s : DState, s.queue.length ≤ 16 → (dramRun s inputs).queue.length ≤ 16 := by
  induction inputs with
  | nil => intro s h; exact h
  | cons i rest ih =>
    intro s h
    exact ih (dramTick i s).1 (tick_len i s h)

/-- C2: the response queue is bounded at 16 entries.  Every reachable state
holds at most 16 in-flight responses, `req_ready` is set exactly when the
queue after this cycle's delivery holds fewer than `MAX_QUEUE = 16` entries,
and a valid request is enqueued in a cycle if and only if `req_ready` is set
in that cycle. -/
theorem dram_queue_bound :
    (∀ inputs : List DramInput, (dramRun initState inputs).queue.length ≤ 16) ∧
    (∀ (inp : DramInput) (s : DState),
      (dramTick inp s).2.req_ready = decide ((midQueue inp s).length < 16)) ∧
    (∀ (inp : DramInput) (s : DState),
      (dramTick inp s).1.queue =
        midQueue inp s ++
          (if (inp.req_valid && (dramTick inp s).2.req_ready) = true then [newResp inp s]
          else [])) := by
  refine ⟨fun inputs => run_len inputs initState (by simp [initState]), fun inp s => rfl, fun inp s => ?_⟩
  rw [dramTick_queue_def]
  have hacc : acceptedB inp s = (inp.req_valid && (dramTick inp s).2.req_ready) := rfl
  rw [← hacc]
  split <;> simp

/-- The delivery condition spelled out: a response leaves the queue exactly
when the consumer is ready and the head's countdown (after this cycle's
decrement) is zero. -/
theorem deliverNow_iff (rdy : Bool) (q : List Response) :
    deliverNow rdy q = true ↔
      (rdy = true ∧ ∃ h t, q = h :: t ∧ h.countdown = 0) := by
  cases q with
  | nil => simp [deliverNow]
  | cons h t =>
    simp only [deliverNow, Bool.and_eq_true, beq_iff_eq]
    constructor
    · rintro ⟨hc, hr⟩
      exact ⟨hr, h, t, rfl, hc⟩
    · rintro ⟨hr, h', t', heq, hc⟩
      cases heq
      exact ⟨hc, hr⟩

/-- C4: at most one response is drained per cycle.  The drained entry is
always the head of the (decremented) queue, it is drained exactly when its
countdown has reached zero and the consumer is ready, and apart from this
removal and a possibly enqueued new request the queue is unchanged. -/
theorem dram_single_drain (inp : DramInput) (s : DState) :
    ((dramTick inp s).2.resp_valid = deliverNow inp.resp_ready (tickDown s.queue)) ∧
    (deliverNow inp.resp_ready (tickDown s.queue) = true ↔
      (inp.resp_ready = true ∧ ∃ h t, tickDown s.queue = h :: t ∧ h.countdown = 0)) ∧
    ((dramTick inp s).1.queue =
      (if deliverNow inp.resp_ready (tickDown s.queue) = true then (tickDown s.queue).tail
        else tickDown s.queue) ++
        (if acceptedB inp s = true then [newResp inp s] else [])) ∧
    ((dramTick inp s).2.resp_id =
      if deliverNow inp.resp_ready (tickDown s.queue) = true then
        ((tickDown s.queue).headD dfltResp).id
      else 0) ∧
    ((tickDown s.queue).map Response.id = s.queue.map Response.id) := by
  refine ⟨rfl, deliverNow_iff _ _, ?_, rfl, tickDown_ids s.queue⟩
  rw [dramTick_queue_def]
  show (if acceptedB inp s = true then midQueue inp s ++ [newResp inp s] else midQueue inp s) =
    midQueue inp s ++ (if acceptedB inp s = true then [newResp inp s] else [])
  split <;> simp

/-- Bytes not targeted by any performed loop iteration are untouched. -/
theorem writeGo_frame (m : Nat → Nat) (off : Nat) (data : List Nat) (mask : Nat) :
    ∀ n j, (∀ i, i < n → off + i ≠ j) → writeGo m off data mask n j = m j := by
  intro n
  induction n with
  | zero => intro j _; rfl
  | succ k ih =>
    intro j h
    have hk : off + k ≠ j := h k (Nat.lt_succ_self k)
    have hrest : ∀ i, i < k → off + i ≠ j := fun i hi => h i (Nat.lt_succ_of_lt hi)
    show writeGo m off data mask (k + 1) j = m j
    unfold writeGo
    split
    · split
      · show writeByte (writeGo m off data mask k) (off + k) (byteVal data k) j = m j
        unfold writeByte
        rw [if_neg (fun hj => hk hj.symm)]
        exact ih j hrest
      · exact ih j hrest
    · exact ih j hrest

/-- Value of byte `off + i` after the loop: byte `i` of the payload when the
mask selects it and the address is in bounds, the previous value otherwise. -/
theorem writeGo_at (m : Nat → Nat) (off : Nat) (data : List Nat) (mask : Nat) :
    ∀ n i, i < n →
      writeGo m off data mask n (off + i) =
        (if ((mask >>> i) &&& 1 = 1 ∧ off + i < MEMSIZE) then byteVal data i
        else m (off + i)) := by
  intro n
  induction n with
  | zero => intro i hi; omega
  | succ k ih =>
    intro i hi
    rcases Nat.lt_succ_iff_lt_or_eq.mp hi with hik | hik
    · have hne : off + k ≠ off + i := by omega
      show writeGo m off data mask (k + 1) (off + i) = _
      unfold writeGo
      split
      · split
        · show writeByte (writeGo m off data mask k) (off + k) (byteVal data k) (off + i) = _
          unfold writeByte
          rw [if_neg (fun hj => hne hj.symm)]
          exact ih i hik
        · exact ih i hik
      · exact ih i hik
    · subst hik
      have hfr : writeGo m off data mask i (off + i) = m (off + i) :=
        writeGo_frame m off data mask i (off + i) (fun i' hi' => by omega)
      show writeGo m off data mask (i + 1) (off + i) = _
      unfold writeGo
      by_cases hm : (mask >>> i) &&& 1 = 1
      · rw [if_pos hm]
        by_cases hb : off + i < MEMSIZE
        · rw [if_pos hb, if_pos ⟨hm, hb⟩]
          show writeByte (writeGo m off data mask i) (off + i) (byteVal data i) (off + i) = _
          unfold writeByte
          rw [if_pos rfl]
        · rw [if_neg hb, if_neg (fun hc => hb hc.2)]
          exact hfr
      · rw [if_neg hm, if_neg (fun hc => hm hc.1)]
        exact hfr

/-- Shared characterisation of the storage after an accepted in-range write. -/
theorem writeMem_spec (inp : DramInput) (s : DState)
    (hw : inp.req_isWr = true) (ha : acceptedB inp s = true) (hr : inRange inp = true) :
    (∀ i, i < 16 → (inp.req_mask >>> i) &&& 1 = 1 → rawAddr inp + i < MEMSIZE →
      (dramTick inp s).1.mem (rawAddr inp + i) = byteVal inp.req_data i) ∧
    (∀ i, i < 16 → ¬((inp.req_mask >>> i) &&& 1 = 1) →
      (dramTick inp s).1.mem (rawAddr inp + i) = s.mem (rawAddr inp + i)) ∧
    (∀ j, (j < rawAddr inp ∨ rawAddr inp + 16 ≤ j) →
      (dramTick inp s).1.mem j = s.mem j) := by
  have hmem : (dramTick inp s).1.mem = writeData s.mem (rawAddr inp) inp.req_data inp.req_mask := by
    rw [dramTick_mem_def, ha, hw, hr]
    rfl
  rw [hmem]
  unfold writeData
  refine ⟨fun i hi hm hb => ?_, fun i hi hm => ?_, fun j hj => ?_⟩
  · rw [writeGo_at s.mem (rawAddr inp) inp.req_data inp.req_mask 16 i hi, if_pos ⟨hm, hb⟩]
  · rw [writeGo_at s.mem (rawAddr inp) inp.req_data inp.req_mask 16 i hi,
      if_neg (fun hc => hm hc.1)]
  · exact writeGo_frame s.mem (rawAddr inp) inp.req_data inp.req_mask 16 j
      (fun i hi => by omega)

/-- C5: writes are byte-masked.  For an accepted in-range write, byte `A + i`
of the storage becomes byte `i` of the 128-bit payload exactly when bit `i` of
the mask is set (and the byte is within the storage); unmasked bytes and all
bytes outside the 16-byte window keep their previous value. -/
theorem dram_write_mask_frame (inp : DramInput) (s : DState)
    (hw : inp.req_isWr = true) (ha : acceptedB inp s = true) (hr : inRange inp = true) :
    (∀ i, i < 16 → (inp.req_mask >>> i) &&& 1 = 1 → rawAddr inp + i < MEMSIZE →
      (dramTick inp s).1.mem (rawAddr inp + i) = byteVal inp.req_data i) ∧
    (∀ i, i < 16 → ¬((inp.req_mask >>> i) &&& 1 = 1) →
      (dramTick inp s).1.mem (rawAddr inp + i) = s.mem (rawAddr inp + i)) ∧
    (∀ j, (j < rawAddr inp ∨ rawAddr inp + 16 ≤ j) →
      (dramTick inp s).1.mem j = s.mem j) :=
  writeMem_spec inp s hw ha hr

/-- C6: out-of-bounds accesses are ignored.  An accepted request whose 32-bit
truncated address is at or beyond the storage size leaves every byte of the
storage unchanged and still enqueues a normal response carrying the request id,
all-zero data, and the full latency countdown; nothing else of the state or
the outputs differs from the in-range protocol, so no error reaches the
caller. -/
theorem dram_oob_ignored (inp : DramInput) (s : DState)
    (ha : acceptedB inp s = true) (hoob : MEMSIZE ≤ rawAddr inp) :
    (∀ j, (dramTick inp s).1.mem j = s.mem j) ∧
    (dramTick inp s).1.queue = midQueue inp s ++ [⟨inp.req_id, [0, 0, 0, 0], DELAY⟩] := by
  have hinr : inRange inp = false := by
    unfold inRange
    exact decide_eq_false (by omega)
  constructor
  · intro j
    rw [dramTick_mem_def, hinr]
    simp
  · rw [dramTick_queue_def, ha, if_pos rfl]
    have hnr : newResp inp s = ⟨inp.req_id, [0, 0, 0, 0], DELAY⟩ := by
      unfold newResp
      rw [hinr]
      simp
    rw [hnr]

/-- C10: reads at the very end of memory are all-or-nothing.  For an accepted
request whose address is in range but whose 16-byte window crosses the end of
the storage: a read enqueues a response with all-zero data and leaves memory
unchanged, while a masked write still stores every masked byte that falls
within bounds. -/
theorem dram_boundary_read_write (inp : DramInput) (s : DState)
    (ha : acceptedB inp s = true) (hlo : rawAddr inp < MEMSIZE)
    (hhi : MEMSIZE < rawAddr inp + 16) :
    (inp.req_isWr = false →
      (dramTick inp s).1.queue = midQueue inp s ++ [⟨inp.req_id, [0, 0, 0, 0], DELAY⟩] ∧
      (∀ j, (dramTick inp s).1.mem j = s.mem j)) ∧
    (inp.req_isWr = true →
      ∀ i, i < 16 → (inp.req_mask >>> i) &&& 1 = 1 → rawAddr inp + i < MEMSIZE →
        (dramTick inp s).1.mem (rawAddr inp + i) = byteVal inp.req_data i) := by
  constructor
  · intro hw
    constructor
    · rw [dramTick_queue_def, ha, if_pos rfl]
      have hnr : newResp inp s = ⟨inp.req_id, [0, 0, 0, 0], DELAY⟩ := by
        unfold newResp
        rw [hw]
        have h16 : decide (rawAddr inp + 16 ≤ MEMSIZE) = false := decide_eq_false (by omega)
        rw [h16]
        simp
      rw [hnr]
    · intro j
      rw [dramTick_mem_def, hw]
      simp
  · intro hw i hi hm hb
    exact (writeMem_spec inp s hw ha
      (by unfold inRange; exact decide_eq_true hlo)).1 i hi hm hb

/-!
Faithfulness of the ghost instrumentation and the age invariant.
-/

theorem atickDown_erase (q : List ARec) :
    (atickDown q).map ARec.r = tickDown (q.map ARec.r) := by
  unfold atickDown tickDown
  rw [List.map_map, List.map_map]
  apply List.map_congr_left
  intro e _
  by_cases h : 0 < e.r.countdown
  · simp [h]
  · simp [h]

theorem adeliverNow_erase (rdy : Bool) (q : List ARec) :
    adeliverNow rdy q = deliverNow rdy (q.map ARec.r) := by
  cases q <;> rfl

theorem amidQueue_erase (inp : DramInput) (s : AState) :
    (amidQueue inp s).map ARec.r = midQueue inp (eraseA s) := by
  unfold amidQueue midQueue
  have hq : (eraseA s).queue = s.queue.map ARec.r := rfl
  rw [hq, ← atickDown_erase, ← adeliverNow_erase]
  split
  · exact List.map_tail ARec.r (atickDown s.queue)
  · rfl

theorem aacceptedB_erase (inp : DramInput) (s : AState) :
    aacceptedB inp s = acceptedB inp (eraseA s) := by
  unfold aacceptedB acceptedB
  have hlen : (amidQueue inp s).length = (midQueue inp (eraseA s)).length := by
    rw [← amidQueue_erase, List.length_map]
  rw [hlen]

theorem aheadD_erase (l : List ARec) :
    (l.headD ⟨dfltResp, 0⟩).r = (l.map ARec.r).headD dfltResp := by
  cases l <;> rfl

/-- The instrumentation is behaviourally invisible: erasing the birth indices
from an instrumented tick gives exactly a `dramTick` step, with identical
storage and identical outputs. -/
theorem agedTick_faithful (T : Nat) (inp : DramInput) (s : AState) :
    ((agedTick T inp s).1.queue.map ARec.r = (dramTick inp (eraseA s)).1.queue) ∧
    ((agedTick T inp s).1.mem = (dramTick inp (eraseA s)).1.mem) ∧
    ((agedTick T inp s).2 = (dramTick inp (eraseA s)).2) := by
  have hq : (eraseA s).queue = s.queue.map ARec.r := rfl
  have hdv : adeliverNow inp.resp_ready (atickDown s.queue) =
      deliverNow inp.resp_ready (tickDown (s.queue.map ARec.r)) := by
    rw [← atickDown_erase, ← adeliverNow_erase]
  refine ⟨?_, ?_, ?_⟩
  · show (if aacceptedB inp s = true then
        amidQueue inp s ++ [⟨newResp inp (eraseA s), T⟩] else amidQueue inp s).map ARec.r =
      (if acceptedB inp (eraseA s) = true then
        midQueue inp (eraseA s) ++ [newResp inp (eraseA s)] else midQueue inp (eraseA s))
    rw [aacceptedB_erase]
    split
    · rw [List.map_append, amidQueue_erase]
      rfl
    · exact amidQueue_erase inp s
  · show (if (aacceptedB inp s && inp.req_isWr && inRange inp) = true then
        writeData s.mem (rawAddr inp) inp.req_data inp.req_mask else s.mem) =
      (if (acceptedB inp (eraseA s) && inp.req_isWr && inRange inp) = true then
        writeData (eraseA s).mem (rawAddr inp) inp.req_data inp.req_mask else (eraseA s).mem)
    rw [aacceptedB_erase]
    rfl
  · show DramOutput.mk (decide ((amidQueue inp s).length < 16))
        (adeliverNow inp.resp_ready (atickDown s.queue))
        (if adeliverNow inp.resp_ready (atickDown s.queue) = true then
          ((atickDown s.queue).headD ⟨dfltResp, 0⟩).r.id else 0)
        (if adeliverNow inp.resp_ready (atickDown s.queue) = true then
          ((atickDown s.queue).headD ⟨dfltResp, 0⟩).r.data else [0, 0, 0, 0]) =
      DramOutput.mk (decide ((midQueue inp (eraseA s)).length < 16))
        (deliverNow inp.resp_ready (tickDown (eraseA s).queue))
        (if deliverNow inp.resp_ready (tickDown (eraseA s).queue) = true then
          ((tickDown (eraseA s).queue).headD dfltResp).id else 0)
        (if deliverNow inp.resp_ready (tickDown (eraseA s).queue) = true then
          ((tickDown (eraseA s).queue).headD dfltResp).data else [0, 0, 0, 0])
    have hlen : (amidQueue inp s).length = (midQueue inp (eraseA s)).length := by
      rw [← amidQueue_erase, List.length_map]
    rw [hlen, hq, hdv]
    have hhd : ((atickDown s.queue).headD ⟨dfltResp, 0⟩).r =
        (tickDown (List.map ARec.r s.queue)).headD dfltResp := by
      rw [← atickDown_erase]
      exact aheadD_erase (atickDown s.queue)
    rw [← hhd]

/-- One instrumented tick preserves the age invariant. -/
theorem agedTick_age (T : Nat) (inp : DramInput) (s : AState)
    (hOK : ∀ e ∈ s.queue, ageOK T e) :
    ∀ e ∈ (agedTick T inp s).1.queue, ageOK (T + 1) e := by
  have hstep : ∀ e ∈ atickDown s.queue, ageOK (T + 1) e := by
    intro e he
    rcases List.mem_map.mp he with ⟨e0, he0, heq⟩
    have h0 := hOK e0 he0
    subst heq
    unfold ageOK DELAY at h0
    by_cases hc : 0 < e0.r.countdown
    · rw [if_pos hc]
      unfold ageOK DELAY
      refine ⟨?_, ?_⟩
      · show e0.birth < T + 1
        omega
      · show e0.r.countdown - 1 = 20 - min (T + 1 - 1 - e0.birth) 20
        omega
    · rw [if_neg hc]
      unfold ageOK DELAY
      refine ⟨?_, ?_⟩
      · show e0.birth < T + 1
        omega
      · show e0.r.countdown = 20 - min (T + 1 - 1 - e0.birth) 20
        omega
  have hmid : ∀ e ∈ amidQueue inp s, ageOK (T + 1) e := by
    intro e he
    apply hstep
    unfold amidQueue at he
    by_cases hdv : adeliverNow inp.resp_ready (atickDown s.queue) = true
    · rw [if_pos hdv] at he
      exact List.tail_subset _ he
    · rw [if_neg hdv] at he
      exact he
  intro e he
  have hform : (agedTick T inp s).1.queue =
      (if aacceptedB inp s = true then amidQueue inp s ++ [⟨newResp inp (eraseA s), T⟩]
      else amidQueue inp s) := rfl
  rw [hform] at he
  by_cases hacc : aacceptedB inp s = true
  · rw [if_pos hacc] at he
    rcases List.mem_append.mp he with hm | hm
    · exact hmid e hm
    · rcases List.mem_singleton.mp hm with rfl
      unfold ageOK
      refine ⟨?_, ?_⟩
      · show T < T + 1
        omega
      · show DELAY = DELAY - min (T + 1 - 1 - T) DELAY
        omega
  · rw [if_neg hacc] at he
    exact hmid e he

/-- The age invariant holds along every instrumented run. -/
theorem agedRun_age (inputs : List DramInput) :
    ∀ (T : Nat) (s : AState), (∀ e ∈ s.queue, ageOK T e) →
      ∀ e ∈ (agedRunFrom T s inputs).queue, ageOK (T + inputs.length) e := by
  induction inputs with
  | nil =>
    intro T s h e he
    simpa using h e he
  | cons i rest ih =>
    intro T s h e he
    have h1 := ih (T + 1) (agedTick T i s).1 (agedTick_age T i s h)
    have : T + (i :: rest).length = (T + 1) + rest.length := by
      simp [List.length_cons]
      omega
    rw [this]
    exact h1 e he

/-- Delivery is late: under the age invariant, a tick at time `T` can only
deliver a response whose request was accepted at least `DELAY` ticks before. -/
theorem agedTick_late (T : Nat) (inp : DramInput) (s : AState)
    (hOK : ∀ e ∈ s.queue, ageOK T e)
    (hv : (agedTick T inp s).2.resp_valid = true) :
    ∃ h t, s.queue = h :: t ∧ h.birth + DELAY ≤ T ∧
      (agedTick T inp s).2.resp_id = h.r.id := by
  have hv' : adeliverNow inp.resp_ready (atickDown s.queue) = true := hv
  rcases hq : s.queue with _ | ⟨h, t⟩
  · rw [hq] at hv'
    simp [atickDown, adeliverNow] at hv'
  · refine ⟨h, t, rfl, ?_, ?_⟩
    · have hOKh : ageOK T h := hOK h (by rw [hq]; exact List.mem_cons_self h t)
      have hb : (((if 0 < h.r.countdown then
            (⟨{ h.r with countdown := h.r.countdown - 1 }, h.birth⟩ : ARec)
          else h).r.countdown == 0) && inp.resp_ready) = true := by
        rw [hq] at hv'
        exact hv'
      have hb1 := eq_of_beq ((Bool.and_eq_true _ _).mp hb).1
      unfold ageOK DELAY at hOKh
      show h.birth + DELAY ≤ T
      unfold DELAY
      by_cases hpos : 0 < h.r.countdown
      · rw [if_pos hpos] at hb1
        have hc1 : h.r.countdown - 1 = 0 := hb1
        omega
      · rw [if_neg hpos] at hb1
        have hc1 : h.r.countdown = 0 := hb1
        omega
    · have hid : (agedTick T inp s).2.resp_id =
          (if adeliverNow inp.resp_ready (atickDown s.queue) = true then
            ((atickDown s.queue).headD ⟨dfltResp, 0⟩).r.id else 0) := rfl
      rw [hid, if_pos hv', hq]
      unfold atickDown
      simp only [List.map_cons, List.headD_cons]
      by_cases hpos : 0 < h.r.countdown
      · simp [hpos]
      · simp [hpos]

/-- C3 counterexample: the claim that an in-flight record's countdown is
decremented once per `dram_tick` cycle is false once the countdown has reached
zero while the consumer stalls.  In the concrete run below, the request with
id 7 is accepted on tick 0 and the consumer is never ready: after 21 ticks and
after 22 ticks the same record is still in flight with countdown 0 both times,
so the cycle in between decremented nothing (the countdown also cannot go
below zero). -/
theorem dram_latency_cex :
    (dramRun initState (cexReq :: List.replicate 20 cexIdle)).queue.map
        (fun r => (r.id, r.countdown)) = [(7, 0)] ∧
    (dramRun initState (cexReq :: List.replicate 21 cexIdle)).queue.map
        (fun r => (r.id, r.countdown)) = [(7, 0)] := by
  constructor
  · rfl
  · rfl

/-- C3 (amended): every accepted request has a fixed 20-cycle latency.  The
instrumented model is behaviourally identical to `dramTick`; an accepted
request creates its record with countdown `DELAY = 20` (and birth stamp equal
to the current tick); along every run from the initial state each in-flight
record's countdown equals `DELAY` minus the elapsed cycles (floored at zero),
i.e. it is decremented once per cycle while positive; and a response is never
delivered on a tick fewer than `DELAY` ticks after the tick that accepted its
request. -/
theorem dram_fixed_latency :
    (∀ (T : Nat) (inp : DramInput) (s : AState),
      ((agedTick T inp s).1.queue.map ARec.r = (dramTick inp (eraseA s)).1.queue) ∧
      ((agedTick T inp s).1.mem = (dramTick inp (eraseA s)).1.mem) ∧
      ((agedTick T inp s).2 = (dramTick inp (eraseA s)).2)) ∧
    (∀ (T : Nat) (inp : DramInput) (s : AState),
      (agedTick T inp s).1.queue =
        amidQueue inp s ++
          (if aacceptedB inp s = true then [⟨newResp inp (eraseA s), T⟩] else [])) ∧
    (∀ inputs : List DramInput, ∀ e ∈ (agedRunFrom 0 initA inputs).queue,
      ageOK inputs.length e) ∧
    (∀ (inputs : List DramInput) (inp : DramInput),
      (agedTick inputs.length inp (agedRunFrom 0 initA inputs)).2.resp_valid = true →
      ∃ h t, (agedRunFrom 0 initA inputs).queue = h :: t ∧
        h.birth + DELAY ≤ inputs.length ∧
        (agedTick inputs.length inp (agedRunFrom 0 initA inputs)).2.resp_id = h.r.id) := by
  have hinit : ∀ e ∈ initA.queue, ageOK 0 e := fun e he => (List.not_mem_nil e he).elim
  refine ⟨agedTick_faithful, ?_, ?_, ?_⟩
  · intro T inp s
    show (if aacceptedB inp s = true then
        amidQueue inp s ++ [⟨newResp inp (eraseA s), T⟩] else amidQueue inp s) = _
    split <;> simp
  · intro inputs e he
    have h := agedRun_age inputs 0 initA hinit e he
    simpa using h
  · intro inputs inp hv
    exact agedTick_late inputs.length inp (agedRunFrom 0 initA inputs)
      (fun e he => by simpa using agedRun_age inputs 0 initA hinit e he) hv

/-- Witness for the amended C3 theorem: in the concrete 20-tick run of
`witInputs` the request with id 5 is accepted on tick 0, and the tick at time
20 with a ready consumer delivers it; the theorem then yields that the birth
tick is at least `DELAY` cycles in the past. -/
theorem dram_fixed_latency_w :
    ((agedTick witInputs.length witRdy (agedRunFrom 0 initA witInputs)).2.resp_valid = true) ∧
    (∃ h t, (agedRunFrom 0 initA witInputs).queue = h :: t ∧
      h.birth + DELAY ≤ witInputs.length ∧
      (agedTick witInputs.length witRdy (agedRunFrom 0 initA witInputs)).2.resp_id = h.r.id) :=
  ⟨by decide, dram_fixed_latency.2.2.2 witInputs witRdy (by decide)⟩

/-!
Bit-level helper lemmas for the soft-math proofs.
-/

theorem lor_two_mul_one (c : Nat) : 2 * c ||| 1 = 2 * c + 1 := by
  apply Nat.eq_of_testBit_eq
  intro j
  cases j with
  | zero =>
    have h1 : (2 * c) % 2 = 0 := Nat.mul_mod_right 2 c
    have h2 : (2 * c + 1) % 2 = 1 := by omega
    simp [Nat.testBit_lor, Nat.testBit_zero, h1, h2]
  | succ j =>
    have h1 : 2 * c / 2 = c := by omega
    have h2 : (2 * c + 1) / 2 = c := by omega
    have h3 : (1 : Nat) / 2 = 0 := rfl
    rw [Nat.testBit_lor]
    simp [Nat.testBit_succ, h1, h2, h3]

theorem or_bit (r b : Nat) (hb : b < 2) : r * 2 ||| b = r * 2 + b := by
  interval_cases b
  · simp
  · rw [Nat.mul_comm r 2, lor_two_mul_one]

theorem shiftLeft_lor_distrib (a b i : Nat) : (a ||| b) <<< i = a <<< i ||| b <<< i := by
  apply Nat.eq_of_testBit_eq
  intro j
  simp [Nat.testBit_shiftLeft, Nat.testBit_lor, Bool.and_or_distrib_left]

theorem lor_pow_add (c i : Nat) : c * 2 ^ (i + 1) ||| 2 ^ i = c * 2 ^ (i + 1) + 2 ^ i := by
  have h1 : c * 2 ^ (i + 1) = (2 * c) <<< i := by
    rw [Nat.shiftLeft_eq]
    ring
  have h2 : (2 ^ i : Nat) = 1 <<< i := (Nat.one_shiftLeft i).symm
  rw [h1, h2, ← shiftLeft_lor_distrib, lor_two_mul_one, Nat.shiftLeft_eq, Nat.shiftLeft_eq,
    Nat.shiftLeft_eq]
  ring

/-- The shift-and-add loop computes multiplication modulo `2 ^ 32`. -/
theorem mulLoop_spec (ub : Nat) :
    ∀ ua res, ua < 2 ^ 32 → res < 2 ^ 32 →
      mulLoop ua ub res = (res + ua * ub) % 2 ^ 32 := by
  induction ub using Nat.strong_induction_on with
  | _ ub ih =>
    intro ua res hua hres
    by_cases h : ub = 0
    · subst h
      rw [mulLoop]
      simp
      omega
    · rw [mulLoop]
      rw [dif_neg h]
      have hdiv : ub / 2 < ub := Nat.div_lt_self (Nat.pos_of_ne_zero h) (by decide)
      have hua2 : (ua * 2) % 2 ^ 32 < 2 ^ 32 := Nat.mod_lt _ (by decide)
      have hres2 : (if ub % 2 = 1 then (res + ua) % 2 ^ 32 else res) < 2 ^ 32 := by
        split
        · exact Nat.mod_lt _ (by decide)
        · exact hres
      rw [ih (ub / 2) hdiv _ _ hua2 hres2]
      have hm1 : (ua * 2) % 2 ^ 32 ≡ ua * 2 [MOD 2 ^ 32] := Nat.mod_modEq _ _
      have hm2 : (if ub % 2 = 1 then (res + ua) % 2 ^ 32 else res) ≡
          res + ua * (ub % 2) [MOD 2 ^ 32] := by
        by_cases h2 : ub % 2 = 1
        · rw [if_pos h2, h2, Nat.mul_one]
          exact Nat.mod_modEq _ _
        · have h0 : ub % 2 = 0 := by omega
          rw [if_neg h2, h0, Nat.mul_zero, Nat.add_zero]
      have hcong := hm2.add (hm1.mul (Nat.ModEq.refl (ub / 2)))
      have hfin : res + ua * (ub % 2) + ua * 2 * (ub / 2) = res + ua * ub := by
        have hd2 : 2 * (ub / 2) + ub % 2 = ub := Nat.div_add_mod ub 2
        calc res + ua * (ub % 2) + ua * 2 * (ub / 2)
            = res + ua * (2 * (ub / 2) + ub % 2) := by ring
          _ = res + ua * ub := by rw [hd2]
      rw [hfin] at hcong
      exact hcong

/-- One unfolding of the restoring-division step. -/
theorem udivGo_step (n d q r k : Nat) :
    udivGo n d q r (k + 1) =
      (if d ≤ ((r * 2) % 2 ^ 32) ||| ((n >>> k) &&& 1) then
        udivGo n d (q ||| (1 <<< k)) ((((r * 2) % 2 ^ 32) ||| ((n >>> k) &&& 1)) - d) k
      else udivGo n d q (((r * 2) % 2 ^ 32) ||| ((n >>> k) &&& 1)) k) := rfl

/-- One unfolding of the remainder-only loop. -/
theorem umodGo_step (n d r k : Nat) :
    umodGo n d r (k + 1) =
      (if d ≤ ((r * 2) % 2 ^ 32) ||| ((n >>> k) &&& 1) then
        umodGo n d ((((r * 2) % 2 ^ 32) ||| ((n >>> k) &&& 1)) - d) k
      else umodGo n d (((r * 2) % 2 ^ 32) ||| ((n >>> k) &&& 1)) k) := rfl

/-- Loop invariant of `__udivsi3`: entering the loop with `fuel` iterations
left (so bits `31 .. fuel` already processed), the quotient register holds
`(n >>> fuel) / d` shifted left by `fuel` and the remainder register holds
`(n >>> fuel) % d`; the loop then computes `n / d` and `n % d`.  The 32-bit
wrap on `r <<= 1` never fires because the remainder always fits in 31 bits. -/
theorem udivGo_inv (n d : Nat) (hn : n < 2 ^ 32) (hd : 0 < d) :
    ∀ fuel, fuel ≤ 32 →
      udivGo n d ((n >>> fuel / d) * 2 ^ fuel) (n >>> fuel % d) fuel = (n / d, n % d) := by
  intro fuel
  induction fuel with
  | zero =>
    intro _
    show ((n >>> 0 / d) * 2 ^ 0, n >>> 0 % d) = (n / d, n % d)
    rw [Nat.shiftRight_zero, pow_zero, Nat.mul_one]
  | succ k ih =>
    intro hk
    have hks : k ≤ 32 := by omega
    have hshift : n >>> (k + 1) = n >>> k / 2 := Nat.shiftRight_succ n k
    have hmlt : n >>> k < 2 ^ 32 := by
      have h1 : n >>> k = n / 2 ^ k := Nat.shiftRight_eq_div_pow n k
      have h2 : n / 2 ^ k ≤ n := Nat.div_le_self n (2 ^ k)
      omega
    rw [udivGo_step, hshift]
    have hrle : n >>> k / 2 % d ≤ n >>> k / 2 := Nat.mod_le _ _
    have hmod : (n >>> k / 2 % d * 2) % 2 ^ 32 = n >>> k / 2 % d * 2 :=
      Nat.mod_eq_of_lt (by omega)
    have hbit : (n >>> k) &&& 1 = n >>> k % 2 := Nat.and_one_is_mod _
    have hb2 : n >>> k % 2 < 2 := Nat.mod_lt _ (by decide)
    rw [hmod, hbit, or_bit _ _ hb2]
    have hrlt : n >>> k / 2 % d < d := Nat.mod_lt _ hd
    have hads : d * (n >>> k / 2 / d) + n >>> k / 2 % d = n >>> k / 2 :=
      Nat.div_add_mod _ d
    have hm2 : 2 * (n >>> k / 2) + n >>> k % 2 = n >>> k := by
      have := Nat.div_add_mod (n >>> k) 2
      omega
    by_cases hc : d ≤ n >>> k / 2 % d * 2 + n >>> k % 2
    · rw [if_pos hc]
      have hkey : n >>> k / d = 2 * (n >>> k / 2 / d) + 1 ∧
          n >>> k % d = n >>> k / 2 % d * 2 + n >>> k % 2 - d := by
        refine ((Nat.div_mod_unique hd).mpr ⟨?_, by omega⟩)
        have hexp : d * (2 * (n >>> k / 2 / d) + 1) = 2 * (d * (n >>> k / 2 / d)) + d := by
          ring
        rw [hexp]
        omega
      have hq : (n >>> k / 2 / d) * 2 ^ (k + 1) ||| 1 <<< k = (n >>> k / d) * 2 ^ k := by
        rw [Nat.one_shiftLeft, lor_pow_add, hkey.1, pow_succ]
        ring
      rw [hq, ← hkey.2]
      exact ih hks
    · rw [if_neg hc]
      have hkey : n >>> k / d = 2 * (n >>> k / 2 / d) ∧
          n >>> k % d = n >>> k / 2 % d * 2 + n >>> k % 2 := by
        refine ((Nat.div_mod_unique hd).mpr ⟨?_, by omega⟩)
        have hexp : d * (2 * (n >>> k / 2 / d)) = 2 * (d * (n >>> k / 2 / d)) := by
          ring
        rw [hexp]
        omega
      have hq : (n >>> k / 2 / d) * 2 ^ (k + 1) = (n >>> k / d) * 2 ^ k := by
        rw [hkey.1, pow_succ]
        ring
      rw [hq, ← hkey.2]
      exact ih hks

/-- The remainder-only loop tracks the remainder component of the full loop. -/
theorem umodGo_eq (n d : Nat) :
    ∀ fuel r q, umodGo n d r fuel = (udivGo n d q r fuel).2 := by
  intro fuel
  induction fuel with
  | zero => intro r q; rfl
  | succ k ih =>
    intro r q
    rw [umodGo_step, udivGo_step]
    by_cases hc : d ≤ ((r * 2) % 2 ^ 32) ||| ((n >>> k) &&& 1)
    · rw [if_pos hc, if_pos hc]
      exact ih _ _
    · rw [if_neg hc, if_neg hc]
      exact ih _ _

theorem shiftRight32_eq_zero (n : Nat) (hn : n < 2 ^ 32) : n >>> 32 = 0 := by
  rw [Nat.shiftRight_eq_div_pow]
  exact Nat.div_eq_of_lt hn

/-- Unsigned soft division is exact division, for every nonzero divisor. -/
theorem __udivsi3_spec (n d : Nat) (hn : n < 2 ^ 32) (hd : 0 < d) :
    __udivsi3 n d = n / d := by
  have h := udivGo_inv n d hn hd 32 (le_refl 32)
  rw [shiftRight32_eq_zero n hn, Nat.zero_div, Nat.zero_mod, Nat.zero_mul] at h
  show (udivGo n d 0 0 32).1 = n / d
  rw [h]

/-- Unsigned soft remainder is the exact remainder, for every nonzero divisor. -/
theorem __umodsi3_spec (n d : Nat) (hn : n < 2 ^ 32) (hd : 0 < d) :
    __umodsi3 n d = n % d := by
  have h := udivGo_inv n d hn hd 32 (le_refl 32)
  rw [shiftRight32_eq_zero n hn, Nat.zero_div, Nat.zero_mod, Nat.zero_mul] at h
  show umodGo n d 0 32 = n % d
  rw [umodGo_eq n d 32 0 0, h]

/-- With a zero divisor the comparison `r >= d` always succeeds, so the loop
sets every quotient bit and reassembles `n` in the remainder register. -/
theorem udivGo_zero (n : Nat) (hn : n < 2 ^ 32) :
    ∀ fuel, fuel ≤ 32 →
      udivGo n 0 (2 ^ 32 - 2 ^ fuel) (n >>> fuel) fuel = (2 ^ 32 - 1, n) := by
  intro fuel
  induction fuel with
  | zero =>
    intro _
    show ((2 ^ 32 - 2 ^ 0 : Nat), n >>> 0) = (2 ^ 32 - 1, n)
    rw [Nat.shiftRight_zero, pow_zero]
  | succ k ih =>
    intro hk
    have hks : k ≤ 32 := by omega
    have hshift : n >>> (k + 1) = n >>> k / 2 := Nat.shiftRight_succ n k
    have hmlt : n >>> k < 2 ^ 32 := by
      have h1 : n >>> k = n / 2 ^ k := Nat.shiftRight_eq_div_pow n k
      have h2 : n / 2 ^ k ≤ n := Nat.div_le_self n (2 ^ k)
      omega
    rw [udivGo_step, hshift]
    have hmod : (n >>> k / 2 * 2) % 2 ^ 32 = n >>> k / 2 * 2 :=
      Nat.mod_eq_of_lt (by omega)
    have hbit : (n >>> k) &&& 1 = n >>> k % 2 := Nat.and_one_is_mod _
    have hb2 : n >>> k % 2 < 2 := Nat.mod_lt _ (by decide)
    rw [hmod, hbit, or_bit _ _ hb2, if_pos (Nat.zero_le _), Nat.sub_zero]
    have hpows : (2 : Nat) ^ (31 - k) * 2 ^ (k + 1) = 2 ^ 32 := by
      rw [← pow_add]
      congr 1
      omega
    have hsub : (2 : Nat) ^ 32 - 2 ^ (k + 1) = (2 ^ (31 - k) - 1) * 2 ^ (k + 1) := by
      rw [Nat.sub_mul, one_mul, hpows]
    have hq : (2 : Nat) ^ 32 - 2 ^ (k + 1) ||| 1 <<< k = 2 ^ 32 - 2 ^ k := by
      rw [Nat.one_shiftLeft, hsub, lor_pow_add]
      have hp1 : (2 : Nat) ^ (k + 1) = 2 * 2 ^ k := by
        rw [pow_succ]
        ring
      have hp2 : (2 : Nat) ^ (k + 1) ≤ 2 ^ 32 := Nat.pow_le_pow_right (by decide) (by omega)
      rw [Nat.sub_mul, one_mul, hpows]
      omega
    have hr : n >>> k / 2 * 2 + n >>> k % 2 = n >>> k := by
      have := Nat.div_add_mod (n >>> k) 2
      omega
    rw [hq, hr]
    exact ih hks

/-- C9: division by zero does not trap and has the fixed values
`__udivsi3(n, 0) = 2 ^ 32 - 1` and `__umodsi3(n, 0) = n`.  Totality in exactly
32 loop iterations holds by construction: `udivGo`/`umodGo` structurally
recurse on a fuel argument fixed at 32 for every input. -/
theorem soft_div_by_zero (n : Nat) (hn : n < 2 ^ 32) :
    __udivsi3 n 0 = 2 ^ 32 - 1 ∧ __umodsi3 n 0 = n := by
  have h := udivGo_zero n hn 32 (le_refl 32)
  rw [shiftRight32_eq_zero n hn, Nat.sub_self] at h
  constructor
  · show (udivGo n 0 0 0 32).1 = 2 ^ 32 - 1
    rw [h]
  · show umodGo n 0 0 32 = n
    rw [umodGo_eq n 0 32 0 0, h]

/-- Witness for C9 at `n = 5`. -/
theorem soft_div_by_zero_w :
    (5 : Nat) < 2 ^ 32 ∧ (__udivsi3 5 0 = 2 ^ 32 - 1 ∧ __umodsi3 5 0 = 5) :=
  ⟨by decide, soft_div_by_zero 5 (by decide)⟩

theorem toInt32_small (x : Nat) (h : x < 2 ^ 31) : toInt32 x = (x : Int) :=
  if_pos h

theorem toInt32_neg_base (x : Nat) (h1 : 2 ^ 31 ≤ x) (h2 : x < 2 ^ 32) :
    toInt32 x = -(((2 ^ 32 - x : Nat)) : Int) := by
  unfold toInt32
  rw [if_neg (by omega), Nat.cast_sub (by omega)]
  push_cast
  ring

theorem toInt32_negof (u : Nat) (hu : u ≤ 2 ^ 31) :
    toInt32 ((2 ^ 32 - u) % 2 ^ 32) = -(u : Int) := by
  by_cases h0 : u = 0
  · subst h0
    rw [Nat.sub_zero, Nat.mod_self]
    unfold toInt32
    rw [if_pos (by omega)]
    simp
  · have h1 : (2 ^ 32 - u) % 2 ^ 32 = 2 ^ 32 - u := Nat.mod_eq_of_lt (by omega)
    rw [h1]
    unfold toInt32
    rw [if_neg (by omega), Nat.cast_sub (by omega : u ≤ 2 ^ 32)]
    push_cast
    ring

theorem int_neg_tmod (a b : Int) : (-a).tmod b = -(a.tmod b) := by
  rw [Int.tmod_def, Int.tmod_def, Int.neg_tdiv]
  ring

/-- Signed soft division agrees with truncating division away from the single
wrapping input pair. -/
theorem __divsi3_spec (n d : Nat) (hn : n < 2 ^ 32) (hd : d < 2 ^ 32) (hd0 : d ≠ 0)
    (hedge : ¬(n = 2 ^ 31 ∧ d = 2 ^ 32 - 1)) :
    toInt32 (__divsi3 n d) = (toInt32 n).tdiv (toInt32 d) := by
  by_cases hnn : 2 ^ 31 ≤ n <;> by_cases hdd : 2 ^ 31 ≤ d
  · -- both operands negative
    have e1 : decide (2 ^ 31 ≤ n) = true := decide_eq_true hnn
    have e2 : decide (2 ^ 31 ≤ d) = true := decide_eq_true hdd
    have hun : (2 ^ 32 - n) % 2 ^ 32 = 2 ^ 32 - n := Nat.mod_eq_of_lt (by omega)
    have hud : (2 ^ 32 - d) % 2 ^ 32 = 2 ^ 32 - d := Nat.mod_eq_of_lt (by omega)
    have hred : __divsi3 n d = __udivsi3 (2 ^ 32 - n) (2 ^ 32 - d) := by
      unfold __divsi3
      rw [e1, e2, hun, hud]
      simp
    have hq : __udivsi3 (2 ^ 32 - n) (2 ^ 32 - d) = (2 ^ 32 - n) / (2 ^ 32 - d) :=
      __udivsi3_spec _ _ (by omega) (by omega)
    have hqle : (2 ^ 32 - n) / (2 ^ 32 - d) ≤ 2 ^ 32 - n := Nat.div_le_self _ _
    have huq : (2 ^ 32 - n) / (2 ^ 32 - d) < 2 ^ 31 := by
      by_contra hcon
      push_neg at hcon
      by_cases h1 : 2 ^ 32 - d = 1
      · rw [h1, Nat.div_one] at hcon
        exact hedge ⟨by omega, by omega⟩
      · have h2 : 2 ≤ 2 ^ 32 - d := by omega
        have h3 : (2 ^ 32 - n) / (2 ^ 32 - d) ≤ (2 ^ 32 - n) / 2 :=
          Nat.div_le_div_left h2 (by decide)
        omega
    rw [hred, hq, toInt32_small _ huq, toInt32_neg_base n hnn hn, toInt32_neg_base d hdd hd,
      Int.neg_tdiv, Int.tdiv_neg, neg_neg, ← Int.ofNat_tdiv]
  · -- n negative, d positive
    have e1 : decide (2 ^ 31 ≤ n) = true := decide_eq_true hnn
    have e2 : decide (2 ^ 31 ≤ d) = false := decide_eq_false hdd
    have hun : (2 ^ 32 - n) % 2 ^ 32 = 2 ^ 32 - n := Nat.mod_eq_of_lt (by omega)
    have hred : __divsi3 n d = (2 ^ 32 - __udivsi3 (2 ^ 32 - n) d) % 2 ^ 32 := by
      unfold __divsi3
      rw [e1, e2, hun]
      simp
    have hq : __udivsi3 (2 ^ 32 - n) d = (2 ^ 32 - n) / d :=
      __udivsi3_spec _ _ (by omega) (by omega)
    have hqle : (2 ^ 32 - n) / d ≤ 2 ^ 32 - n := Nat.div_le_self _ _
    rw [hred, hq, toInt32_negof _ (by omega), toInt32_neg_base n hnn hn,
      toInt32_small d (by omega), Int.neg_tdiv, ← Int.ofNat_tdiv]
  · -- n positive, d negative
    have e1 : decide (2 ^ 31 ≤ n) = false := decide_eq_false hnn
    have e2 : decide (2 ^ 31 ≤ d) = true := decide_eq_true hdd
    have hud : (2 ^ 32 - d) % 2 ^ 32 = 2 ^ 32 - d := Nat.mod_eq_of_lt (by omega)
    have hred : __divsi3 n d = (2 ^ 32 - __udivsi3 n (2 ^ 32 - d)) % 2 ^ 32 := by
      unfold __divsi3
      rw [e1, e2, hud]
      simp
    have hq : __udivsi3 n (2 ^ 32 - d) = n / (2 ^ 32 - d) :=
      __udivsi3_spec _ _ (by omega) (by omega)
    have hqle : n / (2 ^ 32 - d) ≤ n := Nat.div_le_self _ _
    rw [hred, hq, toInt32_negof _ (by omega), toInt32_small n (by omega),
      toInt32_neg_base d hdd hd, Int.tdiv_neg, ← Int.ofNat_tdiv]
  · -- both operands positive
    have e1 : decide (2 ^ 31 ≤ n) = false := decide_eq_false hnn
    have e2 : decide (2 ^ 31 ≤ d) = false := decide_eq_false hdd
    have hred : __divsi3 n d = __udivsi3 n d := by
      unfold __divsi3
      rw [e1, e2]
      simp
    have hq : __udivsi3 n d = n / d := __udivsi3_spec _ _ (by omega) (by omega)
    have hqle : n / d ≤ n := Nat.div_le_self _ _
    rw [hred, hq, toInt32_small _ (by omega), toInt32_small n (by omega),
      toInt32_small d (by omega), ← Int.ofNat_tdiv]

/-- Signed soft remainder agrees with the truncating remainder. -/
theorem __modsi3_spec (n d : Nat) (hn : n < 2 ^ 32) (hd : d < 2 ^ 32) (hd0 : d ≠ 0) :
    toInt32 (__modsi3 n d) = (toInt32 n).tmod (toInt32 d) := by
  by_cases hnn : 2 ^ 31 ≤ n <;> by_cases hdd : 2 ^ 31 ≤ d
  · have e1 : decide (2 ^ 31 ≤ n) = true := decide_eq_true hnn
    have e2 : decide (2 ^ 31 ≤ d) = true := decide_eq_true hdd
    have hun : (2 ^ 32 - n) % 2 ^ 32 = 2 ^ 32 - n := Nat.mod_eq_of_lt (by omega)
    have hud : (2 ^ 32 - d) % 2 ^ 32 = 2 ^ 32 - d := Nat.mod_eq_of_lt (by omega)
    have hred : __modsi3 n d = (2 ^ 32 - __umodsi3 (2 ^ 32 - n) (2 ^ 32 - d)) % 2 ^ 32 := by
      unfold __modsi3
      rw [e1, e2, hun, hud]
      simp
    have hr : __umodsi3 (2 ^ 32 - n) (2 ^ 32 - d) = (2 ^ 32 - n) % (2 ^ 32 - d) :=
      __umodsi3_spec _ _ (by omega) (by omega)
    have hrlt : (2 ^ 32 - n) % (2 ^ 32 - d) < 2 ^ 32 - d := Nat.mod_lt _ (by omega)
    rw [hred, hr, toInt32_negof _ (by omega), toInt32_neg_base n hnn hn,
      toInt32_neg_base d hdd hd, Int.tmod_neg, int_neg_tmod, ← Int.ofNat_tmod]
  · have e1 : decide (2 ^ 31 ≤ n) = true := decide_eq_true hnn
    have e2 : decide (2 ^ 31 ≤ d) = false := decide_eq_false hdd
    have hun : (2 ^ 32 - n) % 2 ^ 32 = 2 ^ 32 - n := Nat.mod_eq_of_lt (by omega)
    have hred : __modsi3 n d = (2 ^ 32 - __umodsi3 (2 ^ 32 - n) d) % 2 ^ 32 := by
      unfold __modsi3
      rw [e1, e2, hun]
      simp
    have hr : __umodsi3 (2 ^ 32 - n) d = (2 ^ 32 - n) % d :=
      __umodsi3_spec _ _ (by omega) (by omega)
    have hrlt : (2 ^ 32 - n) % d < d := Nat.mod_lt _ (by omega)
    rw [hred, hr, toInt32_negof _ (by omega), toInt32_neg_base n hnn hn,
      toInt32_small d (by omega), int_neg_tmod, ← Int.ofNat_tmod]
  · have e1 : decide (2 ^ 31 ≤ n) = false := decide_eq_false hnn
    have e2 : decide (2 ^ 31 ≤ d) = true := decide_eq_true hdd
    have hud : (2 ^ 32 - d) % 2 ^ 32 = 2 ^ 32 - d := Nat.mod_eq_of_lt (by omega)
    have hred : __modsi3 n d = __umodsi3 n (2 ^ 32 - d) := by
      unfold __modsi3
      rw [e1, e2, hud]
      simp
    have hr : __umodsi3 n (2 ^ 32 - d) = n % (2 ^ 32 - d) :=
      __umodsi3_spec _ _ (by omega) (by omega)
    have hrlt : n % (2 ^ 32 - d) < 2 ^ 32 - d := Nat.mod_lt _ (by omega)
    rw [hred, hr, toInt32_small _ (by omega), toInt32_small n (by omega),
      toInt32_neg_base d hdd hd, Int.tmod_neg, ← Int.ofNat_tmod]
  · have e1 : decide (2 ^ 31 ≤ n) = false := decide_eq_false hnn
    have e2 : decide (2 ^ 31 ≤ d) = false := decide_eq_false hdd
    have hred : __modsi3 n d = __umodsi3 n d := by
      unfold __modsi3
      rw [e1, e2]
      simp
    have hr : __umodsi3 n d = n % d := __umodsi3_spec _ _ (by omega) (by omega)
    have hrlt : n % d < d := Nat.mod_lt _ (by omega)
    rw [hred, hr, toInt32_small _ (by omega), toInt32_small n (by omega),
      toInt32_small d (by omega), ← Int.ofNat_tmod]

/-- C8 (amended): the soft-math routines compute integer multiply, divide,
and modulo.  `__mulsi3` multiplies modulo `2 ^ 32`; for nonzero divisors
`__udivsi3` and `__umodsi3` are the unsigned quotient and remainder; and
`__divsi3` and `__modsi3` realise C's truncating signed division and
remainder on the two's-complement readings of the 32-bit patterns — for
`__divsi3` with the single exception of the input pair `(-2^31, -1)`, where
the mathematically correct quotient `2^31` wraps to `-2^31`. -/
theorem soft_math_spec :
    (∀ a b, a < 2 ^ 32 → b < 2 ^ 32 → __mulsi3 a b = (a * b) % 2 ^ 32) ∧
    (∀ n d, n < 2 ^ 32 → d < 2 ^ 32 → d ≠ 0 →
      __udivsi3 n d = n / d ∧ __umodsi3 n d = n % d) ∧
    (∀ n d, n < 2 ^ 32 → d < 2 ^ 32 → d ≠ 0 → ¬(n = 2 ^ 31 ∧ d = 2 ^ 32 - 1) →
      toInt32 (__divsi3 n d) = (toInt32 n).tdiv (toInt32 d)) ∧
    (∀ n d, n < 2 ^ 32 → d < 2 ^ 32 → d ≠ 0 →
      toInt32 (__modsi3 n d) = (toInt32 n).tmod (toInt32 d)) := by
  refine ⟨?_, ?_, ?_, ?_⟩
  · intro a b ha hb
    unfold __mulsi3
    rw [mulLoop_spec b a 0 ha (by decide), Nat.zero_add]
  · intro n d hn hd hd0
    exact ⟨__udivsi3_spec n d hn (Nat.pos_of_ne_zero hd0),
      __umodsi3_spec n d hn (Nat.pos_of_ne_zero hd0)⟩
  · intro n d hn hd hd0 hedge
    exact __divsi3_spec n d hn hd hd0 hedge
  · intro n d hn hd hd0
    exact __modsi3_spec n d hn hd hd0

/-- C8 counterexample: at the bit patterns of `n = -2^31` and `d = -1` the
claim fails.  C's truncating division would give `2^31` (here, the right-hand
side evaluates to `2^31`), but `__divsi3` returns the pattern `0x80000000`,
which reads back as `-2^31`: the quotient of two negative operands comes out
negative, contradicting the claimed sign rule. -/
theorem soft_divsi3_intmin_cex :
    toInt32 (__divsi3 (2 ^ 31) (2 ^ 32 - 1)) ≠
      (toInt32 (2 ^ 31)).tdiv (toInt32 (2 ^ 32 - 1)) := by
  decide

/-- Witness for the amended C8 theorem at concrete inputs (the signed pair is
`-7 / 3`). -/
theorem soft_math_spec_w :
    ((7 : Nat) < 2 ^ 32 ∧ (9 : Nat) < 2 ^ 32 ∧ __mulsi3 7 9 = (7 * 9) % 2 ^ 32) ∧
    (__udivsi3 100 7 = 100 / 7 ∧ __umodsi3 100 7 = 100 % 7) ∧
    (toInt32 (__divsi3 4294967289 3) = (toInt32 4294967289).tdiv (toInt32 3)) ∧
    (toInt32 (__modsi3 4294967289 3) = (toInt32 4294967289).tmod (toInt32 3)) :=
  ⟨⟨by decide, by decide, soft_math_spec.1 7 9 (by decide) (by decide)⟩,
   soft_math_spec.2.1 100 7 (by decide) (by decide) (by decide),
   soft_math_spec.2.2.1 4294967289 3 (by decide) (by decide) (by decide) (by decide),
   soft_math_spec.2.2.2 4294967289 3 (by decide) (by decide) (by decide)⟩

/-- Reduction of `processLine` to its case tree. -/
theorem processLine_red (m : Nat → Nat) (addr : Nat) (l : List Char) :
    processLine m addr l =
      (match trimC (stripComment l) with
      | [] => (m, addr)
      | c :: _ =>
        if c = '@' then (m, addr)
        else
          match parseHexU32 (trimC (stripComment l)) with
          | none => (m, addr)
          | some v =>
            if addr + 4 ≤ MEMSIZE then (storeWord m addr v, addr + 4)
            else (m, addr)) := rfl

/-- Reduction of `processLine` on a line that trims to nothing. -/
theorem processLine_nil (m : Nat → Nat) (addr : Nat) (l : List Char)
    (h : trimC (stripComment l) = []) : processLine m addr l = (m, addr) := by
  rw [processLine_red, h]

/-- Reduction of `processLine` on a line with nonempty trimmed content. -/
theorem processLine_cons (m : Nat → Nat) (addr : Nat) (l : List Char) (c : Char)
    (cs : List Char) (h : trimC (stripComment l) = c :: cs) :
    processLine m addr l =
      (if c = '@' then (m, addr)
      else
        match parseHexU32 (c :: cs) with
        | none => (m, addr)
        | some v =>
          if addr + 4 ≤ MEMSIZE then (storeWord m addr v, addr + 4)
          else (m, addr)) := by
  rw [processLine_red, h]

/-- C7: during the hex-file load, a line that is blank after comment
stripping and trimming, an `@` directive, or unparsable as a hexadecimal
number is skipped — it changes neither the memory nor the load address — and
any line that does change the state was successfully parsed, stored its
32-bit value as four little-endian bytes at the load address, and advanced
the address by exactly 4 (bytes outside the stored word are untouched). -/
theorem dram_init_line_skip (m : Nat → Nat) (addr : Nat) (l : List Char) :
    (skipLine l → processLine m addr l = (m, addr)) ∧
    (processLine m addr l ≠ (m, addr) →
      ∃ v, parseHexU32 (trimC (stripComment l)) = some v ∧
        addr + 4 ≤ MEMSIZE ∧
        processLine m addr l = (storeWord m addr v, addr + 4) ∧
        storeWord m addr v addr = v &&& 255 ∧
        storeWord m addr v (addr + 1) = (v >>> 8) &&& 255 ∧
        storeWord m addr v (addr + 2) = (v >>> 16) &&& 255 ∧
        storeWord m addr v (addr + 3) = (v >>> 24) &&& 255 ∧
        (∀ j, j < addr ∨ addr + 4 ≤ j → storeWord m addr v j = m j)) := by
  have hb0 : ∀ v, storeWord m addr v addr = v &&& 255 := by
    intro v
    unfold storeWord writeByte
    rw [if_neg (by omega), if_neg (by omega), if_neg (by omega), if_pos rfl]
  have hb1 : ∀ v, storeWord m addr v (addr + 1) = (v >>> 8) &&& 255 := by
    intro v
    unfold storeWord writeByte
    rw [if_neg (by omega), if_neg (by omega), if_pos rfl]
  have hb2 : ∀ v, storeWord m addr v (addr + 2) = (v >>> 16) &&& 255 := by
    intro v
    unfold storeWord writeByte
    rw [if_neg (by omega), if_pos rfl]
  have hb3 : ∀ v, storeWord m addr v (addr + 3) = (v >>> 24) &&& 255 := by
    intro v
    unfold storeWord writeByte
    rw [if_pos rfl]
  have hfr : ∀ v j, j < addr ∨ addr + 4 ≤ j → storeWord m addr v j = m j := by
    intro v j hj
    unfold storeWord writeByte
    rw [if_neg (by omega), if_neg (by omega), if_neg (by omega), if_neg (by omega)]
  constructor
  · intro hskip
    rcases ht : trimC (stripComment l) with _ | ⟨c, cs⟩
    · exact processLine_nil m addr l ht
    · rw [processLine_cons m addr l c cs ht]
      unfold skipLine at hskip
      rw [ht] at hskip
      by_cases hc : c = '@'
      · rw [if_pos hc]
      · rw [if_neg hc]
        rcases hskip with h1 | h2 | h3
        · exact absurd h1 (by simp)
        · exact absurd (by simpa using h2) hc
        · rw [h3]
  · intro hne
    rcases ht : trimC (stripComment l) with _ | ⟨c, cs⟩
    · exact absurd (processLine_nil m addr l ht) hne
    · rw [processLine_cons m addr l c cs ht] at hne ⊢
      by_cases hc : c = '@'
      · rw [if_pos hc] at hne
        exact absurd rfl hne
      · rw [if_neg hc] at hne ⊢
        rcases hp : parseHexU32 (c :: cs) with _ | v
        · rw [hp] at hne
          exact absurd rfl hne
        · rw [hp] at hne
          have hmatch : (match some v with
              | none => (m, addr)
              | some v =>
                if addr + 4 ≤ MEMSIZE then (storeWord m addr v, addr + 4)
                else (m, addr)) =
              (if addr + 4 ≤ MEMSIZE then (storeWord m addr v, addr + 4) else (m, addr)) := rfl
          rw [hmatch] at hne ⊢
          by_cases hsz : addr + 4 ≤ MEMSIZE
          · rw [if_pos hsz] at hne ⊢
            exact ⟨v, rfl, hsz, rfl, hb0 v, hb1 v, hb2 v, hb3 v, hfr v⟩
          · rw [if_neg hsz] at hne
            exact absurd rfl hne

/-- Witness for C7: the comment-only line changes nothing, and the line
`DEADBEEF` stores a word at address 0 and advances the address to 4. -/
theorem dram_init_line_skip_w :
    (skipLine cLine ∧ processLine (fun _ => 0) 0 cLine = ((fun _ => 0), 0)) ∧
    (∃ v, parseHexU32 (trimC (stripComment dLine)) = some v ∧
      0 + 4 ≤ MEMSIZE ∧
      processLine (fun _ => 0) 0 dLine = (storeWord (fun _ => 0) 0 v, 0 + 4) ∧
      storeWord (fun _ => 0) 0 v 0 = v &&& 255 ∧
      storeWord (fun _ => 0) 0 v (0 + 1) = (v >>> 8) &&& 255 ∧
      storeWord (fun _ => 0) 0 v (0 + 2) = (v >>> 16) &&& 255 ∧
      storeWord (fun _ => 0) 0 v (0 + 3) = (v >>> 24) &&& 255 ∧
      (∀ j, j < 0 ∨ 0 + 4 ≤ j → storeWord (fun _ => 0) 0 v j = (fun _ => 0) j)) :=
  ⟨⟨by unfold skipLine; decide,
    (dram_init_line_skip (fun _ => 0) 0 cLine).1 (by unfold skipLine; decide)⟩,
   (dram_init_line_skip (fun _ => 0) 0 dLine).2 (by
     intro h
     have h2 := congrArg Prod.snd h
     exact absurd h2 (by decide))⟩

/-- Witness for C4: the drain characterisation instantiated at a concrete
tick from the initial state with a ready consumer. -/
theorem dram_single_drain_w :
    ((dramTick witRdy initState).2.resp_valid =
      deliverNow witRdy.resp_ready (tickDown initState.queue)) ∧
    (deliverNow witRdy.resp_ready (tickDown initState.queue) = true ↔
      (witRdy.resp_ready = true ∧
        ∃ h t, tickDown initState.queue = h :: t ∧ h.countdown = 0)) ∧
    ((dramTick witRdy initState).1.queue =
      (if deliverNow witRdy.resp_ready (tickDown initState.queue) = true then
        (tickDown initState.queue).tail
      else tickDown initState.queue) ++
        (if acceptedB witRdy initState = true then [newResp witRdy initState] else [])) ∧
    ((dramTick witRdy initState).2.resp_id =
      if deliverNow witRdy.resp_ready (tickDown initState.queue) = true then
        ((tickDown initState.queue).headD dfltResp).id
      else 0) ∧
    ((tickDown initState.queue).map Response.id = initState.queue.map Response.id) :=
  dram_single_drain witRdy initState

/-- Witness for C5: the masked-write frame property at a concrete in-range
write (address 16, mask bits 0 and 2). -/
theorem dram_write_mask_frame_w :
    wrReq.req_isWr = true ∧ acceptedB wrReq initState = true ∧ inRange wrReq = true ∧
    ((∀ i, i < 16 → (wrReq.req_mask >>> i) &&& 1 = 1 → rawAddr wrReq + i < MEMSIZE →
      (dramTick wrReq initState).1.mem (rawAddr wrReq + i) = byteVal wrReq.req_data i) ∧
    (∀ i, i < 16 → ¬((wrReq.req_mask >>> i) &&& 1 = 1) →
      (dramTick wrReq initState).1.mem (rawAddr wrReq + i) = initState.mem (rawAddr wrReq + i)) ∧
    (∀ j, (j < rawAddr wrReq ∨ rawAddr wrReq + 16 ≤ j) →
      (dramTick wrReq initState).1.mem j = initState.mem j)) :=
  ⟨rfl, by decide, by decide,
   dram_write_mask_frame wrReq initState rfl (by decide) (by decide)⟩

/-- Witness for C6: an accepted out-of-range read (address `2 ^ 31`) leaves
memory unchanged and enqueues a normal zero-data response. -/
theorem dram_oob_ignored_w :
    acceptedB oobReq initState = true ∧ MEMSIZE ≤ rawAddr oobReq ∧
    ((∀ j, (dramTick oobReq initState).1.mem j = initState.mem j) ∧
    (dramTick oobReq initState).1.queue =
      midQueue oobReq initState ++ [⟨oobReq.req_id, [0, 0, 0, 0], DELAY⟩]) :=
  ⟨by decide, by decide, dram_oob_ignored oobReq initState (by decide) (by decide)⟩

/-- Witness for C10 at a concrete end-of-memory address (`MEMSIZE - 8`): the
read yields a zero-data response, the masked write stores its in-bounds
bytes. -/
theorem dram_boundary_read_write_w :
    (acceptedB tailRd initState = true ∧ rawAddr tailRd < MEMSIZE ∧
      MEMSIZE < rawAddr tailRd + 16 ∧
      ((dramTick tailRd initState).1.queue =
        midQueue tailRd initState ++ [⟨tailRd.req_id, [0, 0, 0, 0], DELAY⟩] ∧
      (∀ j, (dramTick tailRd initState).1.mem j = initState.mem j))) ∧
    (acceptedB tailWr initState = true ∧ tailWr.req_isWr = true ∧
      (∀ i, i < 16 → (tailWr.req_mask >>> i) &&& 1 = 1 → rawAddr tailWr + i < MEMSIZE →
        (dramTick tailWr initState).1.mem (rawAddr tailWr + i) = byteVal tailWr.req_data i)) :=
  ⟨⟨by decide, by decide, by decide,
    (dram_boundary_read_write tailRd initState (by decide) (by decide) (by decide)).1 rfl⟩,
   ⟨by decide, rfl,
    (dram_boundary_read_write tailWr initState (by decide) (by decide) (by decide)).2 rfl⟩⟩
